import Mathlib

/-!
Verification development for the maven_repo artifact-repository server.

Strings from the Go source are modelled as lists of characters (`Str`);
Go byte strings in this code base are ASCII, so the char-level model is
faithful.  File modification times are modelled as nanoseconds since Go's
zero time (a natural number), matching `time.Time` comparisons used by the
source (`After` is strict `<` on that scale).
-/

abbrev Str := List Char

/-- `strings.HasPrefix pre s` from the Go standard library. -/
def strStarts : Str → Str → Bool
  | [], _ => true
  | _ :: _, [] => false
  | c :: pre, d :: s => c = d && strStarts pre s

/-- `strings.TrimRight s "/"`: remove all trailing slash characters. -/
def trimRightSlashes (s : Str) : Str :=
  (s.reverse.dropWhile (fun c => c = '/')).reverse

/-- `strings.Split s "/"` (keeps empty segments, `Split "" "/" = [""]`). -/
def splitSlash : Str → List Str
  | [] => [[]]
  | c :: rest =>
    match splitSlash rest with
    | g :: gs => if c = '/' then [] :: g :: gs else (c :: g) :: gs
    | [] => [[]]

/-- `strings.Join parts "/"`. -/
def joinSlash (parts : List Str) : Str := List.intercalate ['/'] parts

/-! ### Snapshot parser (`extractVersion`, `src/service/cleanup.go`)

The source classifies a filename with two anchored Go regexes, tried in
order with leftmost-first (greedy) submatch semantics:

  `^(.+)-(\d{8}\.\d{6}-\d+)(.*)$`   (unique snapshot)
  `^(.+)-(SNAPSHOT)(.*)$`           (non-unique snapshot)

Greedy `(.+)` means group 1 is the longest prefix admitting a match of the
remainder, and greedy `\d+` means the build number is the maximal digit
run.  The embedding implements exactly that search.
-/

/-- Consume exactly `n` digit characters, returning the remainder. -/
def digitsN : Nat → Str → Option Str
  | 0, l => some l
  | _ + 1, [] => none
  | n + 1, c :: l => if c.isDigit then digitsN n l else none

/-- After `\d{8}\.\d{6}-`: at least one digit must follow. -/
def tsAfterDash : Str → Bool
  | [] => false
  | c3 :: _ => c3.isDigit

/-- After `\d{8}\.\d{6}`: a dash then `\d+` must follow. -/
def tsAfter14 : Str → Bool
  | [] => false
  | c2 :: l5 => if c2 = '-' then tsAfterDash l5 else false

/-- After `\d{8}\.`: six digits then `-\d+` must follow. -/
def tsAfterDot (l3 : Str) : Bool :=
  match digitsN 6 l3 with
  | none => false
  | some l4 => tsAfter14 l4

/-- After `\d{8}`: a dot then `\d{6}-\d+` must follow. -/
def tsAfter8 : Str → Bool
  | [] => false
  | c1 :: l3 => if c1 = '.' then tsAfterDot l3 else false

/-- Does `l` begin with `\d{8}\.\d{6}-\d+` (8 digits, dot, 6 digits,
dash, at least one digit)? -/
def tsHead (l : Str) : Bool :=
  match digitsN 8 l with
  | none => false
  | some l2 => tsAfter8 l2

/-- Given `l` starting with the timestamp pattern, the greedy match of
`\d{8}\.\d{6}-\d+` (group 2) and the rest (group 3).  The fixed part
`\d{8}\.\d{6}-` is exactly 16 characters. -/
def tsTake (l : Str) : Str × Str :=
  (l.take 16 ++ (l.drop 16).takeWhile Char.isDigit,
   (l.drop 16).dropWhile Char.isDigit)

/-- Is `i` a feasible split for `^(.+)-(\d{8}\.\d{6}-\d+)(.*)$`, i.e. a
nonempty group 1 of length `i` followed by `-` and the timestamp pattern? -/
def goodCutU (name : Str) (i : Nat) : Bool :=
  decide (0 < i) &&
    match name.drop i with
    | [] => false
    | c :: r => if c = '-' then tsHead r else false

/-- The greedy (largest) feasible split position for the unique-snapshot
regex, if any. -/
def bestCutU (name : Str) : Option Nat :=
  (List.range name.length).reverse.find? (goodCutU name)

/-- Groups 1 and 2 of the unique-snapshot regex under Go's greedy
leftmost-first semantics, when the name matches. -/
def findUnique (name : Str) : Option (Str × Str) :=
  match bestCutU name with
  | none => none
  | some i =>
    match name.drop i with
    | [] => none
    | c :: r => if c = '-' then some (name.take i, (tsTake r).1) else none

/-- The literal `SNAPSHOT`. -/
def snapLit : Str := "SNAPSHOT".toList

/-- Feasible split for `^(.+)-(SNAPSHOT)(.*)$`. -/
def goodCutS (name : Str) (i : Nat) : Bool :=
  decide (0 < i) &&
    match name.drop i with
    | [] => false
    | c :: r => if c = '-' then strStarts snapLit r else false

/-- The greedy feasible split position for the non-unique-snapshot regex. -/
def bestCutS (name : Str) : Option Nat :=
  (List.range name.length).reverse.find? (goodCutS name)

/-- Group 1 of the non-unique-snapshot regex (group 2 is always
`SNAPSHOT`), when the name matches. -/
def findSnap (name : Str) : Option Str :=
  match bestCutS name with
  | none => none
  | some i => some (name.take i)

/-- `extractVersion` from `src/service/cleanup.go`: unique-snapshot key,
else non-unique-snapshot key, else the name cut at its first dot. -/
def extractVersion (name : Str) : Str :=
  match findUnique name with
  | some (m1, m2) => m1 ++ '-' :: m2
  | none =>
    match findSnap name with
    | some m1 => m1 ++ '-' :: snapLit
    | none =>
      if name.any (fun c => c = '.') then name.takeWhile (fun c => c ≠ '.')
      else name

/-! ### Retention engine (`cleanupDir`, `src/service/cleanup.go`)

`cleanupDir` lists a snapshot directory, groups the non-directory,
non-`maven-metadata*` files by `extractVersion`, ranks the groups by the
newest mod-time in each, sorts descending, and deletes every file of each
group that is expired or not at rank 0 under the keep-latest-only policy.

The Go `groups` map together with the later `range` over it yields the
version list in an unspecified order; the embedding materialises the map
as an association list in first-occurrence order and keeps the sorting
step (`sortVersions`) as a separate definition, so that statements about
order-(in)dependence can be made against it directly. -/

/-- A directory entry as seen by the retention engine. -/
structure CEntry where
  name : Str
  isDir : Bool
  modTime : Nat
deriving DecidableEq

/-- The per-file record kept by `cleanupDir` (`fileInfo` in the source). -/
structure FInfo where
  name : Str
  modTime : Nat
deriving DecidableEq

/-- A snapshot-version group (`versionInfo` in the source). -/
structure VInfo where
  name : Str
  maxTime : Nat
  files : List FInfo
deriving DecidableEq

/-- The excluded filename stem `maven-metadata`. -/
def metaStem : Str := "maven-metadata".toList

/-- The files `cleanupDir` actually groups: entries that are not
directories and whose name does not start with `maven-metadata`. -/
def groupedFiles (entries : List CEntry) : List FInfo :=
  entries.filterMap (fun e =>
    if e.isDir then none
    else if strStarts metaStem e.name then none
    else some ⟨e.name, e.modTime⟩)

/-- `groups[version] = append(groups[version], f)` on an association
list keyed in first-occurrence order. -/
def addToGroups (gs : List (Str × List FInfo)) (k : Str) (f : FInfo) :
    List (Str × List FInfo) :=
  match gs with
  | [] => [(k, [f])]
  | (k', fs) :: rest =>
    if k' = k then (k', fs ++ [f]) :: rest else (k', fs) :: addToGroups rest k f

/-- One iteration of the grouping loop:
`groups[s.extractVersion(e.Name)] = append(..., fileInfo{...})`. -/
def groupStep (gs : List (Str × List FInfo)) (f : FInfo) : List (Str × List FInfo) :=
  addToGroups gs (extractVersion f.name) f

/-- The `groups` map of `cleanupDir`, as an association list. -/
def groupsOf (entries : List CEntry) : List (Str × List FInfo) :=
  (groupedFiles entries).foldl groupStep []

/-- Max mod-time of a group: the source folds from the zero time,
updating on strict `After`. -/
def maxTimeOf (fs : List FInfo) : Nat :=
  fs.foldl (fun m f => if m < f.modTime then f.modTime else m) 0

/-- The `versions` slice built from the groups map. -/
def versionsOf (entries : List CEntry) : List VInfo :=
  (groupsOf entries).map (fun g => ⟨g.1, maxTimeOf g.2, g.2⟩)

/-- The comparator of the source's `sort.Slice` call:
`versions[i].MaxTime.After(versions[j].MaxTime)`. -/
def vLt (a b : VInfo) : Bool := decide (b.maxTime < a.maxTime)

/-- Insert into a list sorted descending by `maxTime`.  The Go sort is
unstable and its comparator never consults the group key, so no tie
order is promised by the source; the embedding fixes one concrete tie
behaviour (an inserted group goes after the equal-time groups already
present). -/
def insertV (a : VInfo) : List VInfo → List VInfo
  | [] => [a]
  | b :: rest => if vLt a b then a :: b :: rest else b :: insertV a rest

/-- The `sort.Slice(versions, ...)` step of `cleanupDir`. -/
def sortVersions : List VInfo → List VInfo
  | [] => []
  | a :: rest => insertV a (sortVersions rest)

/-- Nanoseconds in 24 hours (`24 * time.Hour`). -/
def dayNs : Nat := 86400000000000

/-- The age test of `cleanupDir`:
`keepDays > 0 && now.Sub(v.MaxTime) > keepDays*24h`. -/
def isExpired (keepDays now : Nat) (v : VInfo) : Bool :=
  decide (0 < keepDays) && decide (keepDays * dayNs < now - v.maxTime)

/-- The full per-group deletion test at rank `i`. -/
def shouldDelete (keepDays : Nat) (keepLatest : Bool) (now i : Nat) (v : VInfo) : Bool :=
  isExpired keepDays now v || (keepLatest && decide (0 < i))

/-- The `for i, v := range versions` deletion loop, returning the names
of the deleted files (deletes are assumed to succeed; the source logs
and continues on per-file failure). -/
def deleteLoop (keepDays : Nat) (keepLatest : Bool) (now : Nat) :
    Nat → List VInfo → List Str
  | _, [] => []
  | i, v :: rest =>
    (if shouldDelete keepDays keepLatest now i v then v.files.map (fun f => f.name) else [])
      ++ deleteLoop keepDays keepLatest now (i + 1) rest

/-- `cleanupDir` on a directory listing: the names of the files it
deletes, given the retention configuration and the current time. -/
def cleanupDirDeleted (entries : List CEntry) (keepDays : Nat)
    (keepLatest : Bool) (now : Nat) : List Str :=
  deleteLoop keepDays keepLatest now 0 (sortVersions (versionsOf entries))

/-! ### Maven handlers (`src/handler/maven.go`) -/

/-- A storage directory entry as used by the handlers
(`storage.Entry`; mod-time is irrelevant to the claims about them). -/
structure AEntry where
  name : Str
  isDir : Bool
  size : Nat
deriving DecidableEq

/-- The literal `maven-public`. -/
def pubName : Str := "maven-public".toList

/-- The literal `maven-releases`. -/
def relName : Str := "maven-releases".toList

/-- Loop body of `getAggregateRepos`: the accumulator carries the
`repos` slice and the `hasReleases` flag. -/
def aggStep (base : Str) (acc : List Str × Bool) (e : AEntry) : List Str × Bool :=
  if e.isDir then
    if e.name = pubName then acc
    else if e.name = relName then (acc.1, true)
    else (acc.1 ++ [base ++ '/' :: e.name], acc.2)
  else acc

/-- `getAggregateRepos`: enumerate the base path's listing, keep
directories, skip `maven-public`, pull `maven-releases` to the front. -/
def getAggregateRepos (basePath : Str) (entries : List AEntry) : List Str :=
  let base := trimRightSlashes basePath
  let acc := entries.foldl (aggStep base) ([], false)
  if acc.2 then (base ++ '/' :: relName) :: acc.1 else acc.1

/-- The `seen` map deduplication loop of `HandleAggregateDownload`:
render an entry unless its name was already seen. -/
def dedupeByName : List AEntry → List Str → List AEntry
  | [], _ => []
  | e :: rest, seen =>
    if e.name ∈ seen then dedupeByName rest seen
    else e :: dedupeByName rest (e.name :: seen)

/-- The sequence of entries the aggregate index renders, given the
per-repository listings in repository order. -/
def aggregateRendered (listings : List (List AEntry)) : List AEntry :=
  dedupeByName listings.flatten []

/-- The literal `repository/`. -/
def repoSeg : Str := "repository/".toList

/-- The literal `public/`. -/
def pubSeg : Str := "public/".toList

/-- The prefix-stripping heuristic of `HandleDownload`'s upstream
fallback (lines 80-89 of `src/handler/maven.go`). -/
def getArtifactPath (p : Str) : Str :=
  let parts := splitSlash p
  if strStarts repoSeg p && decide (2 < parts.length) then
    joinSlash (parts.drop 2)
  else if strStarts pubSeg p && decide (1 < parts.length) then
    joinSlash (parts.drop 1)
  else p

/-- The mirror URLs probed by `HandleHead`: the raw request path is
appended to each mirror base. -/
def headProbeURLs (proxies : List Str) (p : Str) : List Str :=
  proxies.map (fun pr => trimRightSlashes pr ++ '/' :: p)

/-- The mirror URLs fetched by `HandleDownload`'s upstream fallback: the
stripped artifact path is appended to each mirror base. -/
def getFallbackURLs (proxies : List Str) (p : Str) : List Str :=
  proxies.map (fun pr => trimRightSlashes pr ++ '/' :: getArtifactPath p)

/-- `HandleHead`: 200 on a clean local hit, otherwise 200 if some mirror
HEAD probe succeeds, otherwise 404 (clean local miss) or 500 (local
probe error).  The handler calls no store write. -/
def handleHead (proxies : List Str) (localHead : Except Unit Bool)
    (mirror : Str → Bool) (p : Str) : Nat :=
  match localHead with
  | Except.ok true => 200
  | Except.ok false =>
    if (headProbeURLs proxies p).any mirror then 200 else 404
  | Except.error _ =>
    if (headProbeURLs proxies p).any mirror then 200 else 500

/-- A filesystem node for the storage model: a regular file or a
directory with its listing. -/
inductive Node where
  | file : Node
  | dir : List AEntry → Node
deriving DecidableEq

/-- `LocalStorage.List` on a path resolving to `n` (`none` = no such
path).  Go's nil slice is modelled as `[]`: the source only returns nil
or a slice grown by appends, so nil coincides with emptiness. -/
def listDir (n : Option Node) : Except Unit (List AEntry) :=
  match n with
  | none => Except.ok []
  | some Node.file => Except.ok []
  | some (Node.dir es) => Except.ok es

/-- The first decision of `HandleDownload`: render an HTML index, or
fall through to the file probe (and then upstream fallback / 404). -/
inductive DlStep where
  | renderIndex : List AEntry → DlStep
  | fileProbe : DlStep
deriving DecidableEq

/-- `HandleDownload`'s directory check: render iff `List` returned no
error and a non-nil sequence. -/
def downloadFirstStage (n : Option Node) : DlStep :=
  match listDir n with
  | Except.ok es => if es = [] then DlStep.fileProbe else DlStep.renderIndex es
  | Except.error _ => DlStep.fileProbe

/-! ### Retention controller (`Start`/`Pause`/`Resume`/`TriggerCleanup`)

The controller serialises all accesses to the `Paused` flag through a
mutex; the embedding is the induced transition system over the flag,
with one event per serialised action. -/

/-- Controller events: a ticker tick, a manual trigger, pause, resume. -/
inductive Ev where
  | tick : Ev
  | trigger : Ev
  | pause : Ev
  | resume : Ev
deriving DecidableEq

/-- Effect of one event on the `Paused` flag. -/
def stepPaused (p : Bool) : Ev → Bool
  | Ev.pause => true
  | Ev.resume => false
  | _ => p

/-- Whether the event invokes `RunCleanup`: a tick does iff the flag is
clear; a manual trigger always does (`TriggerCleanup` never reads the
flag); pause/resume never do. -/
def runsCleanup (p : Bool) : Ev → Bool
  | Ev.tick => !p
  | Ev.trigger => true
  | _ => false

/-- The `Paused` flag after a serialised event sequence. -/
def pausedAfter (init : Bool) (evs : List Ev) : Bool :=
  evs.foldl stepPaused init

/-- Per-event `RunCleanup`-invocation flags along a serialised event
sequence. -/
def ranFlags (p : Bool) : List Ev → List Bool
  | [] => []
  | e :: rest => runsCleanup p e :: ranFlags (stepPaused p e) rest

/-! ### C2 — spec-side regex predicates

The claim describes `extract_version` through the two anchored regexes;
these predicates state regex membership declaratively (existence of a
group decomposition), to be relayed to the executable matcher. -/

/-- Every character is a decimal digit (`\d`). -/
def digitsOnly (l : Str) : Bool := l.all Char.isDigit

/-- `m2` has the shape `\d{8}\.\d{6}-\d+`. -/
def isTS (m2 : Str) : Prop :=
  ∃ d8 d6 ds, m2 = d8 ++ '.' :: (d6 ++ '-' :: ds)
    ∧ d8.length = 8 ∧ digitsOnly d8 = true
    ∧ d6.length = 6 ∧ digitsOnly d6 = true
    ∧ ds ≠ [] ∧ digitsOnly ds = true

/-- `f` matches `^(.+)-(\d{8}\.\d{6}-\d+)(.*)$` for some choice of
groups. -/
def matchesUnique (f : Str) : Prop :=
  ∃ m1 m2 m3, f = m1 ++ '-' :: (m2 ++ m3) ∧ m1 ≠ [] ∧ isTS m2

/-- `f` matches `^(.+)-(SNAPSHOT)(.*)$` for some choice of groups. -/
def matchesSnap (f : Str) : Prop :=
  ∃ m1 m3, f = m1 ++ '-' :: (snapLit ++ m3) ∧ m1 ≠ []

/-! ### Concrete sanity checks -/

example : extractVersion "app-1.0-20231027.123456-1.jar".toList
    = "app-1.0-20231027.123456-1".toList := by decide
example : extractVersion "app-1.0-20231027.123456-12-sources.jar".toList
    = "app-1.0-20231027.123456-12".toList := by decide
example : extractVersion "app-1.0-SNAPSHOT.pom".toList
    = "app-1.0-SNAPSHOT".toList := by decide
example : extractVersion "app-1.0-SNAPSHOT-sources.jar".toList
    = "app-1.0-SNAPSHOT".toList := by decide
example : extractVersion "readme.txt".toList = "readme".toList := by decide
example : extractVersion "readme".toList = "readme".toList := by decide
example : extractVersion "a-SNAPSHOT-SNAPSHOT.jar".toList
    = "a-SNAPSHOT-SNAPSHOT".toList := by decide

example : cleanupDirDeleted
    [⟨"a-20230101.000000-1.jar".toList, false, 100⟩,
     ⟨"a-20230102.000000-2.jar".toList, false, 200⟩,
     ⟨"maven-metadata.xml".toList, false, 300⟩] 0 true 1000
    = ["a-20230101.000000-1.jar".toList] := by decide

example : getAggregateRepos "repository".toList
    [⟨"dev".toList, true, 0⟩, ⟨"maven-public".toList, true, 0⟩,
     ⟨"maven-releases".toList, true, 0⟩, ⟨"notes.txt".toList, false, 3⟩]
    = ["repository/maven-releases".toList, "repository/dev".toList] := by decide

example : getArtifactPath "repository/develop/com/a.jar".toList
    = "com/a.jar".toList := by decide
example : getArtifactPath "public/com/a.jar".toList = "com/a.jar".toList := by decide
example : getArtifactPath "repository/foo".toList = "repository/foo".toList := by decide

/-! ### Supporting lemmas on the string primitives -/

theorem strStarts_iff (pre s : Str) : strStarts pre s = true ↔ ∃ t, s = pre ++ t := by
  induction pre generalizing s with
  | nil =>
    simp [strStarts]
  | cons c pre ih =>
    cases s with
    | nil =>
      simp [strStarts]
    | cons d s =>
      simp only [strStarts, Bool.and_eq_true, decide_eq_true_eq, List.cons_append]
      constructor
      · rintro ⟨hcd, hrest⟩
        rcases (ih s).1 hrest with ⟨t, ht⟩
        exact ⟨t, by rw [hcd, ht]⟩
      · rintro ⟨t, ht⟩
        have h1 : d = c := by injection ht
        have h2 : s = pre ++ t := by injection ht
        exact ⟨h1.symm, (ih s).2 ⟨t, h2⟩⟩

theorem splitSlash_ne_nil (s : Str) : splitSlash s ≠ [] := by
  induction s with
  | nil => simp [splitSlash]
  | cons c rest ih =>
    cases h : splitSlash rest with
    | nil => exact absurd h ih
    | cons g gs =>
      by_cases hc : c = '/' <;> simp [splitSlash, h, hc]

theorem splitSlash_length_ge_two (s : Str) (h : '/' ∈ s) :
    2 ≤ (splitSlash s).length := by
  induction s with
  | nil => cases h
  | cons c rest ih =>
    cases hg : splitSlash rest with
    | nil => exact absurd hg (splitSlash_ne_nil rest)
    | cons g gs =>
      by_cases hc : c = '/'
      · simp [splitSlash, hg, hc]
      · have hm : '/' ∈ rest := by
          rcases List.mem_cons.1 h with h1 | h1
          · exact absurd h1.symm hc
          · exact h1
        have := ih hm
        rw [hg] at this
        simp only [List.length_cons] at this
        simp [splitSlash, hg, hc]
        omega

theorem startsRepoNotPub (p : Str) (h : strStarts repoSeg p = true) :
    strStarts pubSeg p = false := by
  rcases (strStarts_iff _ _).1 h with ⟨t, ht⟩
  by_contra hb
  have hb' : strStarts pubSeg p = true := by
    cases hx : strStarts pubSeg p
    · exact absurd hx hb
    · rfl
  rcases (strStarts_iff _ _).1 hb' with ⟨u, hu⟩
  have h1 : p.head? = some 'r' := by rw [ht]; rfl
  have h2 : p.head? = some 'p' := by rw [hu]; rfl
  rw [h1] at h2
  exact absurd (Option.some.inj h2) (by decide)

/-! ### C7 — direct GET upstream fallback prefix stripping -/

/-- C7 (counterexample): the claim says a path starting with
`repository/` always has its first two segments dropped; on the
two-segment path `repository/foo` the code's `len(parts) > 2` guard
fails and the path passes through unchanged, while dropping two segments
would leave the empty path. -/
theorem getArtifactPath_two_segment_cex :
    strStarts repoSeg "repository/foo".toList = true
    ∧ getArtifactPath "repository/foo".toList
        ≠ joinSlash ((splitSlash "repository/foo".toList).drop 2) := by
  decide

/-- C7 (amended): the artifact path sent to the mirrors is the request
path with its first two segments dropped when it starts with
`repository/` **and has more than two segments**; the path with its
first segment dropped when it starts with `public/`; and the unchanged
path otherwise (including `repository/`-prefixed paths of at most two
segments). -/
theorem getArtifactPath_spec (p : Str) :
    (strStarts repoSeg p = true → 2 < (splitSlash p).length →
      getArtifactPath p = joinSlash ((splitSlash p).drop 2))
    ∧ (strStarts repoSeg p = true → ¬ 2 < (splitSlash p).length →
      getArtifactPath p = p)
    ∧ (strStarts repoSeg p = false → strStarts pubSeg p = true →
      getArtifactPath p = joinSlash ((splitSlash p).drop 1))
    ∧ (strStarts repoSeg p = false → strStarts pubSeg p = false →
      getArtifactPath p = p) := by
  refine ⟨?_, ?_, ?_, ?_⟩
  · intro hr hlen
    simp [getArtifactPath, hr, hlen]
  · intro hr hlen
    have hp := startsRepoNotPub p hr
    simp [getArtifactPath, hr, hlen, hp]
  · intro hr hp
    have hmem : '/' ∈ p := by
      rcases (strStarts_iff _ _).1 hp with ⟨t, ht⟩
      rw [ht]
      exact List.mem_append_left _ (by decide)
    have hlen : 1 < (splitSlash p).length := splitSlash_length_ge_two p hmem
    simp [getArtifactPath, hr, hp, hlen]
  · intro hr hp
    simp [getArtifactPath, hr, hp]

/-- C7 (witness): the amended theorem applied to the three-segment-plus
path `repository/dev/com/a.jar`, whose artifact path is `com/a.jar`. -/
theorem getArtifactPath_spec_witness :
    strStarts repoSeg "repository/dev/com/a.jar".toList = true
    ∧ 2 < (splitSlash "repository/dev/com/a.jar".toList).length
    ∧ getArtifactPath "repository/dev/com/a.jar".toList
        = joinSlash ((splitSlash "repository/dev/com/a.jar".toList).drop 2) :=
  ⟨by decide, by decide,
    (getArtifactPath_spec "repository/dev/com/a.jar".toList).1 (by decide) (by decide)⟩

/-! ### C8 — HEAD handler and mirror probing -/

/-- C8 (counterexample): the claim says the HEAD handler probes the
mirrors with the same stripped artifact path the GET upstream fallback
uses; in the source `HandleHead` appends the raw request path, so for
`repository/dev/com/a.jar` the two URL lists differ. -/
theorem handleHead_no_strip_cex :
    headProbeURLs ["http://m".toList] "repository/dev/com/a.jar".toList
      ≠ getFallbackURLs ["http://m".toList] "repository/dev/com/a.jar".toList := by
  decide

/-- C8 (amended): on a clean local miss the HEAD handler issues HEAD to
each mirror for the **raw request path** (no prefix stripping), returns
200 when the local probe hits or some mirror probe succeeds, 404 when
the clean local miss sees every mirror fail, and 500 in place of 404
when the local probe itself errored; it performs no store write (the
source handler contains no `Save` call). -/
theorem handleHead_spec (proxies : List Str) (mirror : Str → Bool) (p : Str) :
    handleHead proxies (Except.ok true) mirror p = 200
    ∧ handleHead proxies (Except.ok false) mirror p
        = (if (headProbeURLs proxies p).any mirror then 200 else 404)
    ∧ handleHead proxies (Except.error ()) mirror p
        = (if (headProbeURLs proxies p).any mirror then 200 else 500)
    ∧ headProbeURLs proxies p
        = proxies.map (fun pr => trimRightSlashes pr ++ '/' :: p) :=
  ⟨rfl, rfl, rfl, rfl⟩

/-! ### C4 — group ordering in `cleanupDir` -/

/-- C4 (counterexample): with two groups of equal max mod-time the
comparator of the source's sort never orders one before the other (it
compares only `MaxTime`), so the relative order of the two groups is
whatever order the `groups` map happened to be enumerated in — Go leaves
that order unspecified — and is not decided by the group key: presenting
the same two groups in the two possible orders yields two different
sorted sequences. -/
theorem sortVersions_tie_not_by_key_cex :
    sortVersions [⟨"k1".toList, 5, []⟩, ⟨"k2".toList, 5, []⟩]
        = [⟨"k2".toList, 5, []⟩, ⟨"k1".toList, 5, []⟩]
    ∧ sortVersions [⟨"k2".toList, 5, []⟩, ⟨"k1".toList, 5, []⟩]
        = [⟨"k1".toList, 5, []⟩, ⟨"k2".toList, 5, []⟩]
    ∧ (⟨"k1".toList, 5, []⟩ : VInfo).maxTime = (⟨"k2".toList, 5, []⟩ : VInfo).maxTime
    ∧ sortVersions [⟨"k1".toList, 5, []⟩, ⟨"k2".toList, 5, []⟩]
        ≠ sortVersions [⟨"k2".toList, 5, []⟩, ⟨"k1".toList, 5, []⟩] := by
  decide

theorem perm_insertV (a : VInfo) (l : List VInfo) :
    List.Perm (insertV a l) (a :: l) := by
  induction l with
  | nil => exact List.Perm.refl _
  | cons b rest ih =>
    by_cases h : vLt a b = true
    · simp [insertV, h]
    · simp only [insertV, h, if_false, Bool.false_eq_true]
      exact List.Perm.trans (List.Perm.cons b ih) (List.Perm.swap a b rest)

theorem perm_sortVersions (l : List VInfo) : List.Perm (sortVersions l) l := by
  induction l with
  | nil => exact List.Perm.refl _
  | cons a rest ih =>
    exact List.Perm.trans (perm_insertV a (sortVersions rest)) (List.Perm.cons a ih)

theorem pairwise_insertV (a : VInfo) (l : List VInfo)
    (h : List.Pairwise (fun x y => y.maxTime ≤ x.maxTime) l) :
    List.Pairwise (fun x y => y.maxTime ≤ x.maxTime) (insertV a l) := by
  induction l with
  | nil => simp [insertV]
  | cons b rest ih =>
    rcases List.pairwise_cons.1 h with ⟨hb, hrest⟩
    by_cases hlt : vLt a b = true
    · have hab : b.maxTime < a.maxTime := by
        simpa [vLt] using hlt
      simp only [insertV, hlt, if_true]
      refine List.pairwise_cons.2 ⟨?_, h⟩
      intro x hx
      rcases List.mem_cons.1 hx with hx | hx
      · exact hx ▸ Nat.le_of_lt hab
      · exact Nat.le_trans (hb x hx) (Nat.le_of_lt hab)
    · have hab : a.maxTime ≤ b.maxTime := by
        have : ¬ b.maxTime < a.maxTime := by
          simpa [vLt] using hlt
        omega
      simp only [insertV, hlt, if_false, Bool.false_eq_true]
      refine List.pairwise_cons.2 ⟨?_, ih hrest⟩
      intro x hx
      have hx' : x ∈ a :: rest := (perm_insertV a rest).mem_iff.1 hx
      rcases List.mem_cons.1 hx' with hx' | hx'
      · exact hx' ▸ hab
      · exact hb x hx'

theorem pairwise_sortVersions (l : List VInfo) :
    List.Pairwise (fun x y => y.maxTime ≤ x.maxTime) (sortVersions l) := by
  induction l with
  | nil => simp [sortVersions]
  | cons a rest ih => exact pairwise_insertV a (sortVersions rest) ih

/-- C4 (amended): `cleanupDir` sorts the snapshot-version groups by max
mod-time descending (the sorted sequence is a permutation of the groups,
non-increasing in max mod-time); the relative order of groups with equal
max mod-time is inherited from the unspecified enumeration order of the
`groups` map and is **not** decided by the group key. -/
theorem sortVersions_sorted_perm (l : List VInfo) :
    List.Pairwise (fun x y => y.maxTime ≤ x.maxTime) (sortVersions l)
    ∧ List.Perm (sortVersions l) l :=
  ⟨pairwise_sortVersions l, perm_sortVersions l⟩

/-! ### C9 — pause blocks ticker-driven cleanup -/

theorem pausedAfter_append (init : Bool) (xs ys : List Ev) :
    pausedAfter init (xs ++ ys) = pausedAfter (pausedAfter init xs) ys := by
  simp [pausedAfter, List.foldl_append]

theorem pausedAfter_true_of_no_resume (mid : List Ev) (h : Ev.resume ∉ mid) :
    pausedAfter true mid = true := by
  induction mid with
  | nil => rfl
  | cons e rest ih =>
    have he : e ≠ Ev.resume := fun hc => h (hc ▸ List.mem_cons_self e rest)
    have hr : Ev.resume ∉ rest := fun hc => h (List.mem_cons_of_mem e hc)
    have hstep : stepPaused true e = true := by
      cases e with
      | resume => exact absurd rfl he
      | tick => rfl
      | trigger => rfl
      | pause => rfl
    calc pausedAfter true (e :: rest)
        = pausedAfter (stepPaused true e) rest := rfl
      _ = pausedAfter true rest := by rw [hstep]
      _ = true := ih hr

theorem ranFlags_append (p : Bool) (xs ys : List Ev) :
    ranFlags p (xs ++ ys) = ranFlags p xs ++ ranFlags (pausedAfter p xs) ys := by
  induction xs generalizing p with
  | nil => rfl
  | cons e rest ih =>
    have h1 : ranFlags p ((e :: rest) ++ ys)
        = runsCleanup p e :: ranFlags (stepPaused p e) (rest ++ ys) := rfl
    have h2 : ranFlags p (e :: rest) ++ ranFlags (pausedAfter p (e :: rest)) ys
        = runsCleanup p e ::
            (ranFlags (stepPaused p e) rest
              ++ ranFlags (pausedAfter (stepPaused p e) rest) ys) := rfl
    rw [h1, h2, ih]

/-- C9: in the serialised controller trace, a ticker tick occurring
after a `pause` with no intervening `resume` does not invoke
`RunCleanup` (the appended flag is `false`), while a manual trigger
invokes it in every state. -/
theorem pause_blocks_tick (init : Bool) (pre mid : List Ev)
    (h : Ev.resume ∉ mid) :
    ranFlags init (pre ++ Ev.pause :: (mid ++ [Ev.tick]))
      = ranFlags init (pre ++ Ev.pause :: mid) ++ [false]
    ∧ ∀ p : Bool, runsCleanup p Ev.trigger = true := by
  constructor
  · have hassoc : pre ++ Ev.pause :: (mid ++ [Ev.tick])
        = (pre ++ Ev.pause :: mid) ++ [Ev.tick] := by
      simp
    rw [hassoc, ranFlags_append]
    have hpaused : pausedAfter init (pre ++ Ev.pause :: mid) = true := by
      rw [pausedAfter_append]
      have : pausedAfter (pausedAfter init pre) (Ev.pause :: mid)
          = pausedAfter true mid := rfl
      rw [this]
      exact pausedAfter_true_of_no_resume mid h
    rw [hpaused]
    rfl
  · intro p
    rfl

/-- C9 (witness): the theorem at a concrete trace — tick, pause,
trigger, tick: the final tick does not run cleanup. -/
theorem pause_blocks_tick_witness :
    Ev.resume ∉ [Ev.trigger]
    ∧ (ranFlags false ([Ev.tick] ++ Ev.pause :: ([Ev.trigger] ++ [Ev.tick]))
        = ranFlags false ([Ev.tick] ++ Ev.pause :: [Ev.trigger]) ++ [false]
      ∧ ∀ p : Bool, runsCleanup p Ev.trigger = true) :=
  ⟨by decide, pause_blocks_tick false [Ev.tick] [Ev.trigger] (by decide)⟩

/-! ### C10 — `List` on an empty directory and the direct GET fallthrough -/

/-- C10: `List` returns the nil sequence (modelled `[]`) with no error
for an empty directory, exactly as for a missing path or a regular
file; consequently the direct GET handler does not render an HTML index
there but falls through to the file probe, and it renders an index
exactly when `List` returns a non-nil sequence. -/
theorem listDir_empty_falls_through :
    listDir (some (Node.dir [])) = Except.ok []
    ∧ listDir none = Except.ok []
    ∧ listDir (some Node.file) = Except.ok []
    ∧ downloadFirstStage (some (Node.dir [])) = DlStep.fileProbe
    ∧ ∀ n : Option Node,
        downloadFirstStage n = DlStep.fileProbe ↔ listDir n = Except.ok [] := by
  refine ⟨rfl, rfl, rfl, rfl, ?_⟩
  intro n
  match n with
  | none => simp [downloadFirstStage, listDir]
  | some Node.file => simp [downloadFirstStage, listDir]
  | some (Node.dir es) =>
    cases es with
    | nil => simp [downloadFirstStage, listDir]
    | cons e rest => simp [downloadFirstStage, listDir]

/-! ### C5 — aggregate repository discovery -/

/-- C5 (counterexample): the claim promises the literal full paths
`P + "/" + name` for every base prefix `P`; the source first trims the
trailing slashes of `P`, so for `P = "repository/"` the returned path is
`repository/dev`, not `repository//dev`. -/
theorem getAggregateRepos_trailing_slash_cex :
    getAggregateRepos "repository/".toList [⟨"dev".toList, true, 0⟩]
      ≠ ["repository/".toList ++ '/' :: "dev".toList] := by
  decide

theorem aggStep_foldl (base : Str) (entries : List AEntry) (rs : List Str) (hr : Bool) :
    entries.foldl (aggStep base) (rs, hr)
      = (rs ++ ((((entries.filter (fun e => e.isDir)).map (fun e => e.name)).filter
            (fun n => !(decide (n = pubName)) && !(decide (n = relName)))).map
            (fun n => base ++ '/' :: n)),
         hr || ((entries.filter (fun e => e.isDir)).map (fun e => e.name)).any
            (fun n => decide (n = relName))) := by
  induction entries generalizing rs hr with
  | nil => simp
  | cons e rest ih =>
    by_cases hd : e.isDir = true
    · by_cases hpub : e.name = pubName
      · have hrel : ¬ e.name = relName := by
          rw [hpub]; decide
        have hpr : decide (pubName = relName) = false := by decide
        simp only [List.foldl_cons, aggStep, hd, if_true, hpub, if_pos rfl, ih,
          List.filter_cons, List.map_cons]
        simp [hpub, hrel, hpr]
      · by_cases hrel : e.name = relName
        · have hrp : ¬ relName = pubName := by decide
          simp only [List.foldl_cons, aggStep, hd, if_true, if_neg hpub, hrel, if_pos rfl,
            ih, List.filter_cons, List.map_cons]
          simp [hrel, hpub, hrp]
        · simp only [List.foldl_cons, aggStep, hd, if_true, if_neg hpub, if_neg hrel, ih,
            List.filter_cons, List.map_cons]
          simp [hpub, hrel, List.append_assoc]
    · simp only [List.foldl_cons, aggStep, hd, if_false, ih, List.filter_cons]
      simp [hd]

/-- C5 (amended): for every base prefix `P`, the aggregate router
returns exactly the paths `trimRight(P, "/") + "/" + name` — equal to
`P + "/" + name` whenever `P` has no trailing slash — for the directory
entries of `list(P)`, excluding the name `maven-public`, with
`maven-releases` (when present) placed first and the remaining
directories following in listing order; non-directory entries are never
included. -/
theorem getAggregateRepos_spec (P : Str) (entries : List AEntry) :
    getAggregateRepos P entries
      = (if relName ∈ (entries.filter (fun e => e.isDir)).map (fun e => e.name)
         then [trimRightSlashes P ++ '/' :: relName] else [])
        ++ (((entries.filter (fun e => e.isDir)).map (fun e => e.name)).filter
              (fun n => !(decide (n = pubName)) && !(decide (n = relName)))).map
            (fun n => trimRightSlashes P ++ '/' :: n) := by
  have h := aggStep_foldl (trimRightSlashes P) entries [] false
  simp only [getAggregateRepos, h]
  by_cases hm : relName ∈ (entries.filter (fun e => e.isDir)).map (fun e => e.name)
  · have hany : ((entries.filter (fun e => e.isDir)).map (fun e => e.name)).any
        (fun n => decide (n = relName)) = true :=
      List.any_eq_true.2 ⟨relName, hm, by simp⟩
    simp [hany, hm]
  · have hany : ((entries.filter (fun e => e.isDir)).map (fun e => e.name)).any
        (fun n => decide (n = relName)) = false := by
      rw [List.any_eq_false]
      intro n hn
      simp only [decide_eq_true_eq]
      intro hc
      exact hm (hc ▸ hn)
    simp [hany, hm]

/-! ### C6 — aggregate listing deduplication -/

theorem dedupe_notSeen (xs : List AEntry) (seen : List Str) (e : AEntry)
    (h : e ∈ dedupeByName xs seen) : e.name ∉ seen := by
  induction xs generalizing seen with
  | nil => simp [dedupeByName] at h
  | cons x rest ih =>
    by_cases hx : x.name ∈ seen
    · rw [show dedupeByName (x :: rest) seen
          = dedupeByName rest seen by simp [dedupeByName, hx]] at h
      exact ih seen h
    · rw [show dedupeByName (x :: rest) seen
          = x :: dedupeByName rest (x.name :: seen) by simp [dedupeByName, hx]] at h
      rcases List.mem_cons.1 h with h | h
      · exact h ▸ hx
      · have := ih (x.name :: seen) h
        exact fun hc => this (List.mem_cons_of_mem _ hc)

theorem dedupe_nodup (xs : List AEntry) (seen : List Str) :
    ((dedupeByName xs seen).map (fun e => e.name)).Nodup := by
  induction xs generalizing seen with
  | nil => simp [dedupeByName]
  | cons x rest ih =>
    by_cases hx : x.name ∈ seen
    · rw [show dedupeByName (x :: rest) seen
          = dedupeByName rest seen by simp [dedupeByName, hx]]
      exact ih seen
    · rw [show dedupeByName (x :: rest) seen
          = x :: dedupeByName rest (x.name :: seen) by simp [dedupeByName, hx]]
      refine List.nodup_cons.2 ⟨?_, ih (x.name :: seen)⟩
      intro hc
      rcases List.mem_map.1 hc with ⟨e', he', hname⟩
      have := dedupe_notSeen rest (x.name :: seen) e' he'
      exact this (hname ▸ List.mem_cons_self _ _)

theorem dedupe_find (xs : List AEntry) (seen : List Str) (e' : AEntry)
    (h : e' ∈ dedupeByName xs seen) :
    xs.find? (fun x => decide (x.name = e'.name)) = some e' := by
  induction xs generalizing seen with
  | nil => simp [dedupeByName] at h
  | cons x rest ih =>
    by_cases hx : x.name ∈ seen
    · rw [show dedupeByName (x :: rest) seen
          = dedupeByName rest seen by simp [dedupeByName, hx]] at h
      have hne : ¬ x.name = e'.name := by
        intro hc
        exact dedupe_notSeen rest seen e' h (hc ▸ hx)
      rw [List.find?_cons_of_neg rest (by simpa using hne)]
      exact ih seen h
    · rw [show dedupeByName (x :: rest) seen
          = x :: dedupeByName rest (x.name :: seen) by simp [dedupeByName, hx]] at h
      rcases List.mem_cons.1 h with h | h
      · rw [h]
        exact List.find?_cons_of_pos rest (by simp)
      · have hnotin := dedupe_notSeen rest (x.name :: seen) e' h
        have hne : ¬ x.name = e'.name := by
          intro hc
          exact hnotin (hc ▸ List.mem_cons_self _ _)
        rw [List.find?_cons_of_neg rest (by simpa using hne)]
        exact ih (x.name :: seen) h

theorem dedupe_covers (xs : List AEntry) (seen : List Str) (e : AEntry) (h : e ∈ xs) :
    e.name ∈ seen ∨ ∃ e', e' ∈ dedupeByName xs seen ∧ e'.name = e.name := by
  induction xs generalizing seen with
  | nil => cases h
  | cons x rest ih =>
    by_cases hx : x.name ∈ seen
    · rw [show dedupeByName (x :: rest) seen
          = dedupeByName rest seen by simp [dedupeByName, hx]]
      rcases List.mem_cons.1 h with h | h
      · exact Or.inl (h ▸ hx)
      · exact ih seen h
    · rw [show dedupeByName (x :: rest) seen
          = x :: dedupeByName rest (x.name :: seen) by simp [dedupeByName, hx]]
      rcases List.mem_cons.1 h with h | h
      · exact Or.inr ⟨x, List.mem_cons_self _ _, by rw [h]⟩
      · rcases ih (x.name :: seen) h with hs | ⟨e', he', hname⟩
        · rcases List.mem_cons.1 hs with hs | hs
          · exact Or.inr ⟨x, List.mem_cons_self _ _, hs.symm⟩
          · exact Or.inl hs
        · exact Or.inr ⟨e', List.mem_cons_of_mem _ he', hname⟩

/-- C6: the rendered aggregate index over the releases-first listings
contains each name at most once; every listed name is represented; the
entry kept for a name is the first-seen one in concatenation order over
the releases-first repository sequence; in particular an entry whose
name occurs in the `maven-releases` listing is taken from that listing. -/
theorem aggregateRendered_dedup_spec (rel : List AEntry) (others : List (List AEntry)) :
    ((aggregateRendered (rel :: others)).map (fun e => e.name)).Nodup
    ∧ (∀ e, e ∈ (rel :: others).flatten →
        ∃ e', e' ∈ aggregateRendered (rel :: others) ∧ e'.name = e.name)
    ∧ (∀ e', e' ∈ aggregateRendered (rel :: others) →
        (rel :: others).flatten.find? (fun x => decide (x.name = e'.name)) = some e')
    ∧ (∀ e', e' ∈ aggregateRendered (rel :: others) →
        (∃ e, e ∈ rel ∧ e.name = e'.name) → e' ∈ rel) := by
  refine ⟨dedupe_nodup _ _, ?_, ?_, ?_⟩
  · intro e he
    rcases dedupe_covers ((rel :: others).flatten) [] e he with h | h
    · cases h
    · exact h
  · intro e' he'
    exact dedupe_find _ [] e' he'
  · rintro e' he' ⟨e, hrel, hname⟩
    have hfind := dedupe_find _ [] e' he'
    have hflat : (rel :: others).flatten = rel ++ others.flatten := rfl
    have hsome : (rel.find? (fun x => decide (x.name = e'.name))).isSome :=
      List.find?_isSome.2 ⟨e, hrel, by simp [hname]⟩
    obtain ⟨b, hb⟩ := Option.isSome_iff_exists.1 hsome
    have hbmem : b ∈ rel := List.mem_of_find?_eq_some hb
    have happ : (rel ++ others.flatten).find? (fun x => decide (x.name = e'.name))
        = some b := by
      rw [List.find?_append, hb]
      rfl
    rw [hflat, happ] at hfind
    exact (Option.some.inj hfind) ▸ hbmem

/-- C6 (witness): with `a.jar` present in both the releases listing and
a second repository's listing, the kept entry is the releases one (the
first occurrence in concatenation order). -/
theorem aggregateRendered_dedup_spec_witness :
    (((⟨"a.jar".toList, false, 1⟩ : AEntry) :: [])
        :: [[(⟨"a.jar".toList, false, 2⟩ : AEntry), ⟨"b.jar".toList, false, 3⟩]]).flatten.find?
        (fun x => decide (x.name = (⟨"a.jar".toList, false, 1⟩ : AEntry).name))
      = some ⟨"a.jar".toList, false, 1⟩ :=
  (aggregateRendered_dedup_spec ((⟨"a.jar".toList, false, 1⟩ : AEntry) :: [])
      [[(⟨"a.jar".toList, false, 2⟩ : AEntry), ⟨"b.jar".toList, false, 3⟩]]).2.2.1
    ⟨"a.jar".toList, false, 1⟩ (by decide)

/-! ### Grouping invariants of the retention engine -/

theorem addToGroups_key_inv (gs : List (Str × List FInfo)) (k : Str) (f : FInfo)
    (hg : ∀ p ∈ gs, ∀ g ∈ p.2, extractVersion g.name = p.1)
    (hk : extractVersion f.name = k) :
    ∀ p ∈ addToGroups gs k f, ∀ g ∈ p.2, extractVersion g.name = p.1 := by
  induction gs with
  | nil =>
    intro p hp g hgm
    simp only [addToGroups, List.mem_singleton] at hp
    subst hp
    simp only [List.mem_singleton] at hgm
    subst hgm
    exact hk
  | cons q rest ih =>
    obtain ⟨k', fs⟩ := q
    by_cases hk' : k' = k
    · simp only [addToGroups, if_pos hk']
      intro p hp g hgm
      rcases List.mem_cons.1 hp with hp | hp
      · subst hp
        rcases List.mem_append.1 hgm with hgm | hgm
        · exact hg (k', fs) (List.mem_cons_self _ _) g hgm
        · simp only [List.mem_singleton] at hgm
          subst hgm
          rw [hk, hk']
      · exact hg p (List.mem_cons_of_mem _ hp) g hgm
    · simp only [addToGroups, if_neg hk']
      intro p hp g hgm
      rcases List.mem_cons.1 hp with hp | hp
      · subst hp
        exact hg (k', fs) (List.mem_cons_self _ _) g hgm
      · exact ih (fun p hp => hg p (List.mem_cons_of_mem _ hp)) p hp g hgm

theorem groupStep_foldl_key_inv (fs : List FInfo) (gs : List (Str × List FInfo))
    (hg : ∀ p ∈ gs, ∀ g ∈ p.2, extractVersion g.name = p.1) :
    ∀ p ∈ fs.foldl groupStep gs, ∀ g ∈ p.2, extractVersion g.name = p.1 := by
  induction fs generalizing gs with
  | nil => exact hg
  | cons f rest ih =>
    exact ih (addToGroups gs (extractVersion f.name) f)
      (addToGroups_key_inv gs (extractVersion f.name) f hg rfl)

theorem groupsOf_key_inv (entries : List CEntry) :
    ∀ p ∈ groupsOf entries, ∀ g ∈ p.2, extractVersion g.name = p.1 :=
  groupStep_foldl_key_inv (groupedFiles entries) [] (by intro p hp; cases hp)

theorem addToGroups_keys (gs : List (Str × List FInfo)) (k : Str) (f : FInfo) :
    (addToGroups gs k f).map Prod.fst
      = if k ∈ gs.map Prod.fst then gs.map Prod.fst else gs.map Prod.fst ++ [k] := by
  induction gs with
  | nil => simp [addToGroups]
  | cons q rest ih =>
    obtain ⟨k', fs⟩ := q
    by_cases hk' : k' = k
    · simp [addToGroups, hk']
    · have hne : ¬ k = k' := fun hc => hk' hc.symm
      simp only [addToGroups, if_neg hk', List.map_cons, ih]
      by_cases hmem : k ∈ rest.map Prod.fst
      · simp [hmem, hne]
      · simp [hmem, hne]

theorem addToGroups_keys_nodup (gs : List (Str × List FInfo)) (k : Str) (f : FInfo)
    (h : (gs.map Prod.fst).Nodup) : ((addToGroups gs k f).map Prod.fst).Nodup := by
  rw [addToGroups_keys]
  by_cases hmem : k ∈ gs.map Prod.fst
  · simpa [hmem] using h
  · rw [if_neg hmem]
    refine List.nodup_append.2 ⟨h, List.nodup_singleton k, ?_⟩
    intro a ha hb
    simp only [List.mem_singleton] at hb
    exact hmem (hb ▸ ha)

theorem groupStep_foldl_keys_nodup (fs : List FInfo) (gs : List (Str × List FInfo))
    (hg : (gs.map Prod.fst).Nodup) :
    ((fs.foldl groupStep gs).map Prod.fst).Nodup := by
  induction fs generalizing gs with
  | nil => exact hg
  | cons f rest ih =>
    exact ih _ (addToGroups_keys_nodup gs (extractVersion f.name) f hg)

theorem groupsOf_keys_nodup (entries : List CEntry) :
    ((groupsOf entries).map Prod.fst).Nodup :=
  groupStep_foldl_keys_nodup (groupedFiles entries) [] (by simp)

theorem addToGroups_members (gs : List (Str × List FInfo)) (k : Str) (f : FInfo)
    (S : List FInfo)
    (hg : ∀ p ∈ gs, ∀ g ∈ p.2, g ∈ S) (hf : f ∈ S) :
    ∀ p ∈ addToGroups gs k f, ∀ g ∈ p.2, g ∈ S := by
  induction gs with
  | nil =>
    intro p hp g hgm
    simp only [addToGroups, List.mem_singleton] at hp
    subst hp
    simp only [List.mem_singleton] at hgm
    exact hgm ▸ hf
  | cons q rest ih =>
    obtain ⟨k', fs⟩ := q
    by_cases hk' : k' = k
    · simp only [addToGroups, if_pos hk']
      intro p hp g hgm
      rcases List.mem_cons.1 hp with hp | hp
      · subst hp
        rcases List.mem_append.1 hgm with hgm | hgm
        · exact hg (k', fs) (List.mem_cons_self _ _) g hgm
        · simp only [List.mem_singleton] at hgm
          exact hgm ▸ hf
      · exact hg p (List.mem_cons_of_mem _ hp) g hgm
    · simp only [addToGroups, if_neg hk']
      intro p hp g hgm
      rcases List.mem_cons.1 hp with hp | hp
      · subst hp
        exact hg (k', fs) (List.mem_cons_self _ _) g hgm
      · exact ih (fun p hp => hg p (List.mem_cons_of_mem _ hp)) p hp g hgm

theorem groupStep_foldl_members (fs : List FInfo) (gs : List (Str × List FInfo))
    (S : List FInfo)
    (hg : ∀ p ∈ gs, ∀ g ∈ p.2, g ∈ S) (hfs : ∀ f ∈ fs, f ∈ S) :
    ∀ p ∈ fs.foldl groupStep gs, ∀ g ∈ p.2, g ∈ S := by
  induction fs generalizing gs with
  | nil => exact hg
  | cons f rest ih =>
    exact ih _
      (addToGroups_members gs (extractVersion f.name) f S hg
        (hfs f (List.mem_cons_self _ _)))
      (fun f' hf' => hfs f' (List.mem_cons_of_mem _ hf'))

theorem groupsOf_members (entries : List CEntry) :
    ∀ p ∈ groupsOf entries, ∀ g ∈ p.2, g ∈ groupedFiles entries :=
  groupStep_foldl_members (groupedFiles entries) [] (groupedFiles entries)
    (by intro p hp; cases hp) (fun f hf => hf)

theorem groupedFiles_meta (entries : List CEntry) :
    ∀ f ∈ groupedFiles entries, strStarts metaStem f.name = false := by
  intro f hf
  simp only [groupedFiles, List.mem_filterMap] at hf
  rcases hf with ⟨e, _, heq⟩
  by_cases h1 : e.isDir = true
  · simp [h1] at heq
  · by_cases h2 : strStarts metaStem e.name = true
    · simp [h1, h2] at heq
    · simp only [h1, h2, if_false, Bool.false_eq_true, Option.some.injEq] at heq
      have hname : f.name = e.name := by rw [← heq]
      rw [hname]
      exact Bool.not_eq_true _ ▸ (by simpa using h2)

theorem versions_key (entries : List CEntry) :
    ∀ v ∈ versionsOf entries, ∀ g ∈ v.files, extractVersion g.name = v.name := by
  intro v hv g hg
  simp only [versionsOf, List.mem_map] at hv
  rcases hv with ⟨p, hp, rfl⟩
  exact groupsOf_key_inv entries p hp g hg

theorem versions_names_nodup (entries : List CEntry) :
    ((versionsOf entries).map (fun v => v.name)).Nodup := by
  have h : (versionsOf entries).map (fun v => v.name) = (groupsOf entries).map Prod.fst := by
    simp [versionsOf, List.map_map]
  rw [h]
  exact groupsOf_keys_nodup entries

theorem versions_files_sub (entries : List CEntry) :
    ∀ v ∈ versionsOf entries, ∀ g ∈ v.files, g ∈ groupedFiles entries := by
  intro v hv g hg
  simp only [versionsOf, List.mem_map] at hv
  rcases hv with ⟨p, hp, rfl⟩
  exact groupsOf_members entries p hp g hg

theorem nodup_map_name_inj (vs : List VInfo)
    (h : (vs.map (fun v => v.name)).Nodup) :
    ∀ v ∈ vs, ∀ u ∈ vs, v.name = u.name → v = u := by
  induction vs with
  | nil => intro v hv; cases hv
  | cons x rest ih =>
    rcases List.nodup_cons.1 h with ⟨hx, hrest⟩
    intro v hv u hu hname
    rcases List.mem_cons.1 hv with hv | hv <;> rcases List.mem_cons.1 hu with hu | hu
    · rw [hv, hu]
    · exfalso
      exact hx (List.mem_map.2 ⟨u, hu, (hv ▸ hname).symm⟩)
    · exfalso
      exact hx (List.mem_map.2 ⟨v, hv, hu ▸ hname⟩)
    · exact ih hrest v hv u hu hname

/-! ### Deletion-loop lemmas -/

theorem deleteLoop_mem_of_expired (kd : Nat) (kl : Bool) (now : Nat)
    (l : List VInfo) (i : Nat) (v : VInfo) (f : FInfo)
    (hv : v ∈ l) (hf : f ∈ v.files) (he : isExpired kd now v = true) :
    f.name ∈ deleteLoop kd kl now i l := by
  induction l generalizing i with
  | nil => cases hv
  | cons b rest ih =>
    rcases List.mem_cons.1 hv with hb | hb
    · subst hb
      have hsd : shouldDelete kd kl now i v = true := by
        simp [shouldDelete, he]
      simp only [deleteLoop, hsd, if_pos rfl]
      exact List.mem_append_left _ (List.mem_map.2 ⟨f, hf, rfl⟩)
    · exact List.mem_append_right _ (ih (i + 1) hb)

theorem deleteLoop_keepLatest_pos (now : Nat) (l : List VInfo) (i : Nat) (h : 0 < i) :
    deleteLoop 0 true now i l = l.flatMap (fun v => v.files.map (fun f => f.name)) := by
  induction l generalizing i with
  | nil => simp [deleteLoop]
  | cons v rest ih =>
    have hsd : shouldDelete 0 true now i v = true := by
      simp [shouldDelete, isExpired, h]
    rw [show deleteLoop 0 true now i (v :: rest)
        = (if shouldDelete 0 true now i v then v.files.map (fun f => f.name) else [])
          ++ deleteLoop 0 true now (i + 1) rest from rfl]
    rw [if_pos hsd, List.flatMap_cons, ih (i + 1) (Nat.succ_pos i)]

theorem cleanupDeleted_keepLatest (entries : List CEntry) (now : Nat)
    (w : VInfo) (t : List VInfo)
    (h : sortVersions (versionsOf entries) = w :: t) :
    cleanupDirDeleted entries 0 true now
      = t.flatMap (fun v => v.files.map (fun f => f.name)) := by
  have hsd : shouldDelete 0 true now 0 w = false := by
    simp [shouldDelete, isExpired]
  unfold cleanupDirDeleted
  rw [h]
  rw [show deleteLoop 0 true now 0 (w :: t)
      = (if shouldDelete 0 true now 0 w then w.files.map (fun f => f.name) else [])
        ++ deleteLoop 0 true now 1 t from rfl]
  rw [if_neg (by simp [hsd]), List.nil_append]
  exact deleteLoop_keepLatest_pos now t 1 (by omega)

/-! ### C3 — age-based retention -/

/-- C3: for any `keep_days = K > 0`, any snapshot-version group some of
whose files survive `cleanupDir` (deletes assumed successful) satisfies
`now − max_mod_time ≤ K·24h`; and a group is marked expired exactly when
`keep_days > 0` and `now − max_mod_time > keep_days·24h`. -/
theorem cleanupDir_keepDays_correct (entries : List CEntry) (K now : Nat)
    (keepLatest : Bool) (hK : 0 < K) :
    (∀ v, v ∈ versionsOf entries →
      (∃ f, f ∈ v.files ∧ f.name ∉ cleanupDirDeleted entries K keepLatest now) →
      now - v.maxTime ≤ K * dayNs)
    ∧ (∀ v : VInfo, isExpired K now v = true ↔ (0 < K ∧ K * dayNs < now - v.maxTime)) := by
  constructor
  · rintro v hv ⟨f, hf, hnot⟩
    by_contra hgt
    have hgt' : K * dayNs < now - v.maxTime := by omega
    have he : isExpired K now v = true := by
      simp [isExpired, hK, hgt']
    have hv' : v ∈ sortVersions (versionsOf entries) :=
      (perm_sortVersions (versionsOf entries)).mem_iff.2 hv
    exact hnot (deleteLoop_mem_of_expired K keepLatest now _ 0 v f hv' hf he)
  · intro v
    simp [isExpired, Bool.and_eq_true, decide_eq_true_eq]

/-- C3 (witness): with `K = 1` day and `now` two days past the old
group's mod-time, the surviving (fresh) group's age is within the
threshold; the theorem is applied to the fresh group. -/
theorem cleanupDir_keepDays_correct_witness :
    (0 : Nat) < 1
    ∧ 172800000000000
        - (⟨"b-20230102.000000-1".toList, 172800000000000,
            [⟨"b-20230102.000000-1.jar".toList, 172800000000000⟩]⟩ : VInfo).maxTime
      ≤ 1 * dayNs :=
  ⟨by decide,
    (cleanupDir_keepDays_correct
        [⟨"a-20230101.000000-1.jar".toList, false, 0⟩,
         ⟨"b-20230102.000000-1.jar".toList, false, 172800000000000⟩]
        1 172800000000000 false (by decide)).1
      ⟨"b-20230102.000000-1".toList, 172800000000000,
        [⟨"b-20230102.000000-1.jar".toList, 172800000000000⟩]⟩
      (by decide)
      ⟨⟨"b-20230102.000000-1.jar".toList, 172800000000000⟩, by decide, by decide⟩⟩

/-! ### C1 — keep-latest-only retention -/

/-- C1: with `keep_latest_only = true` and `keep_days = 0` (deletes
assumed successful), `cleanupDir` deletes the files of every
snapshot-version group other than the group `w` with the strictly
greatest max mod-time (the distinct-max-mod-times assumption is the
hypothesis that every other group's max mod-time is strictly below
`w`'s), keeps every file of `w`, and never deletes a file whose name
starts with `maven-metadata`. -/
theorem cleanupDir_keepLatestOnly_correct (entries : List CEntry) (now : Nat)
    (w : VInfo) (hw : w ∈ versionsOf entries)
    (hmax : ∀ v, v ∈ versionsOf entries → v ≠ w → v.maxTime < w.maxTime) :
    (∀ v, v ∈ versionsOf entries → v ≠ w →
      ∀ f, f ∈ v.files → f.name ∈ cleanupDirDeleted entries 0 true now)
    ∧ (∀ f, f ∈ w.files → f.name ∉ cleanupDirDeleted entries 0 true now)
    ∧ (∀ n, n ∈ cleanupDirDeleted entries 0 true now → strStarts metaStem n = false) := by
  cases h : sortVersions (versionsOf entries) with
  | nil =>
    have hw' : w ∈ sortVersions (versionsOf entries) :=
      (perm_sortVersions (versionsOf entries)).mem_iff.2 hw
    rw [h] at hw'
    cases hw'
  | cons h0 t =>
    have hperm := perm_sortVersions (versionsOf entries)
    have hpair := pairwise_sortVersions (versionsOf entries)
    rw [h] at hperm hpair
    have hh0 : h0 = w := by
      by_contra hne
      have hh0mem : h0 ∈ versionsOf entries :=
        hperm.mem_iff.1 (List.mem_cons_self _ _)
      have hlt := hmax h0 hh0mem hne
      have hwmem : w ∈ h0 :: t := hperm.mem_iff.2 hw
      rcases List.mem_cons.1 hwmem with hc | hc
      · exact hne hc.symm
      · have hle := (List.pairwise_cons.1 hpair).1 w hc
        omega
    subst hh0
    have hdel := cleanupDeleted_keepLatest entries now h0 t h
    have hnames := versions_names_nodup entries
    have hnodupv : (versionsOf entries).Nodup := hnames.of_map _
    have hnodups : (h0 :: t).Nodup := hperm.nodup_iff.2 hnodupv
    have hwt : h0 ∉ t := (List.nodup_cons.1 hnodups).1
    refine ⟨?_, ?_, ?_⟩
    · intro v hv hne f hf
      have hvs : v ∈ h0 :: t := hperm.mem_iff.2 hv
      have hvt : v ∈ t := by
        rcases List.mem_cons.1 hvs with hc | hc
        · exact absurd hc hne
        · exact hc
      rw [hdel]
      exact List.mem_flatMap.2 ⟨v, hvt, List.mem_map.2 ⟨f, hf, rfl⟩⟩
    · intro f hf hmem
      rw [hdel] at hmem
      rcases List.mem_flatMap.1 hmem with ⟨v, hvt, hn⟩
      rcases List.mem_map.1 hn with ⟨g, hg, hgname⟩
      have hvmem : v ∈ versionsOf entries :=
        hperm.mem_iff.1 (List.mem_cons_of_mem _ hvt)
      have h1 := versions_key entries v hvmem g hg
      have h2 := versions_key entries h0 hw f hf
      have hvw : v = h0 := by
        refine nodup_map_name_inj _ hnames v hvmem h0 hw ?_
        rw [← h1, ← h2, hgname]
      exact hwt (hvw ▸ hvt)
    · intro n hn
      rw [hdel] at hn
      rcases List.mem_flatMap.1 hn with ⟨v, hvt, hmm⟩
      rcases List.mem_map.1 hmm with ⟨g, hg, hgn⟩
      have hvmem : v ∈ versionsOf entries :=
        hperm.mem_iff.1 (List.mem_cons_of_mem _ hvt)
      have hgf : g ∈ groupedFiles entries := versions_files_sub entries v hvmem g hg
      exact hgn ▸ groupedFiles_meta entries g hgf

/-- C1 (witness): a directory with two unique-snapshot groups (max
mod-times 100 < 200) and a `maven-metadata.xml`; the older group's jar
is deleted and the newest group's jar survives. -/
theorem cleanupDir_keepLatestOnly_correct_witness :
    "a-20230101.000000-1.jar".toList
      ∈ cleanupDirDeleted
          [⟨"a-20230101.000000-1.jar".toList, false, 100⟩,
           ⟨"a-20230102.000000-2.jar".toList, false, 200⟩,
           ⟨"maven-metadata.xml".toList, false, 300⟩] 0 true 999
    ∧ "a-20230102.000000-2.jar".toList
      ∉ cleanupDirDeleted
          [⟨"a-20230101.000000-1.jar".toList, false, 100⟩,
           ⟨"a-20230102.000000-2.jar".toList, false, 200⟩,
           ⟨"maven-metadata.xml".toList, false, 300⟩] 0 true 999 :=
  ⟨(cleanupDir_keepLatestOnly_correct
      [⟨"a-20230101.000000-1.jar".toList, false, 100⟩,
       ⟨"a-20230102.000000-2.jar".toList, false, 200⟩,
       ⟨"maven-metadata.xml".toList, false, 300⟩] 999
      ⟨"a-20230102.000000-2".toList, 200, [⟨"a-20230102.000000-2.jar".toList, 200⟩]⟩
      (by decide) (by decide)).1
    ⟨"a-20230101.000000-1".toList, 100, [⟨"a-20230101.000000-1.jar".toList, 100⟩]⟩
    (by decide) (by decide)
    ⟨"a-20230101.000000-1.jar".toList, 100⟩ (by decide),
   (cleanupDir_keepLatestOnly_correct
      [⟨"a-20230101.000000-1.jar".toList, false, 100⟩,
       ⟨"a-20230102.000000-2.jar".toList, false, 200⟩,
       ⟨"maven-metadata.xml".toList, false, 300⟩] 999
      ⟨"a-20230102.000000-2".toList, 200, [⟨"a-20230102.000000-2.jar".toList, 200⟩]⟩
      (by decide) (by decide)).2.1
    ⟨"a-20230102.000000-2.jar".toList, 200⟩ (by decide)⟩

/-! ### C2 — lemmas relating the executable matcher to the regex predicates -/

theorem digitsN_some (n : Nat) (l l' : Str) :
    digitsN n l = some l' ↔ ∃ d, l = d ++ l' ∧ d.length = n ∧ digitsOnly d = true := by
  induction n generalizing l with
  | zero =>
    simp only [digitsN, Option.some.injEq]
    constructor
    · intro h
      exact ⟨[], by simp [h], rfl, rfl⟩
    · rintro ⟨d, hl, hlen, _⟩
      rw [List.length_eq_zero] at hlen
      subst hlen
      simpa using hl
  | succ n ih =>
    cases l with
    | nil =>
      constructor
      · intro h
        simp [digitsN] at h
      · rintro ⟨d, hl, hlen, _⟩
        cases d with
        | nil => simp at hlen
        | cons c d => simp at hl
    | cons c l =>
      constructor
      · intro h
        by_cases hc : c.isDigit = true
        · rw [show digitsN (n + 1) (c :: l)
              = if c.isDigit then digitsN n l else none from rfl, if_pos hc] at h
          rcases (ih l).1 h with ⟨d, hl2, hlen, hdig⟩
          refine ⟨c :: d, by simp [hl2], by simp [hlen], ?_⟩
          simp only [digitsOnly, List.all_cons, Bool.and_eq_true]
          exact ⟨hc, hdig⟩
        · rw [show digitsN (n + 1) (c :: l)
              = if c.isDigit then digitsN n l else none from rfl, if_neg hc] at h
          cases h
      · rintro ⟨d, hl, hlen, hdig⟩
        cases d with
        | nil => simp at hlen
        | cons c' d =>
          simp only [List.cons_append] at hl
          have h1 : c' = c := by injection hl with ha _; exact ha.symm
          have h2 : l = d ++ l' := by injection hl
          subst h1
          simp only [digitsOnly, List.all_cons, Bool.and_eq_true] at hdig
          rw [show digitsN (n + 1) (c' :: l)
              = if c'.isDigit then digitsN n l else none from rfl, if_pos hdig.1]
          exact (ih l).2 ⟨d, h2, by simpa using hlen, hdig.2⟩

theorem tsHead_elim (r : Str) (h : tsHead r = true) :
    ∃ d8 d6 c rest, r = d8 ++ '.' :: (d6 ++ '-' :: (c :: rest))
      ∧ d8.length = 8 ∧ digitsOnly d8 = true
      ∧ d6.length = 6 ∧ digitsOnly d6 = true ∧ c.isDigit = true := by
  unfold tsHead at h
  cases h8 : digitsN 8 r with
  | none => rw [h8] at h; simp at h
  | some l2 =>
    rw [h8] at h
    have h2 : tsAfter8 l2 = true := h
    cases l2 with
    | nil => simp [tsAfter8] at h2
    | cons c1 l3 =>
      rw [show tsAfter8 (c1 :: l3) = if c1 = '.' then tsAfterDot l3 else false from rfl] at h2
      by_cases hc1 : c1 = '.'
      · rw [if_pos hc1] at h2
        subst hc1
        unfold tsAfterDot at h2
        cases h6 : digitsN 6 l3 with
        | none => rw [h6] at h2; simp at h2
        | some l4 =>
          rw [h6] at h2
          have h3 : tsAfter14 l4 = true := h2
          cases l4 with
          | nil => simp [tsAfter14] at h3
          | cons c2 l5 =>
            rw [show tsAfter14 (c2 :: l5) = if c2 = '-' then tsAfterDash l5 else false
              from rfl] at h3
            by_cases hc2 : c2 = '-'
            · rw [if_pos hc2] at h3
              subst hc2
              cases l5 with
              | nil => simp [tsAfterDash] at h3
              | cons c3 rest =>
                have hd : c3.isDigit = true := h3
                rcases (digitsN_some 8 r _).1 h8 with ⟨d8, hr8, h8len, h8dig⟩
                rcases (digitsN_some 6 l3 _).1 h6 with ⟨d6, hl3, h6len, h6dig⟩
                refine ⟨d8, d6, c3, rest, ?_, h8len, h8dig, h6len, h6dig, hd⟩
                rw [hr8, hl3]
            · rw [if_neg hc2] at h3
              simp at h3
      · rw [if_neg hc1] at h2
        simp at h2

theorem tsHead_intro (r : Str) (d8 d6 ds m3 : Str)
    (hr : r = d8 ++ '.' :: (d6 ++ '-' :: ds) ++ m3)
    (h8len : d8.length = 8) (h8dig : digitsOnly d8 = true)
    (h6len : d6.length = 6) (h6dig : digitsOnly d6 = true)
    (hdsne : ds ≠ []) (hdsdig : digitsOnly ds = true) : tsHead r = true := by
  cases ds with
  | nil => exact absurd rfl hdsne
  | cons c ds' =>
    simp only [digitsOnly, List.all_cons, Bool.and_eq_true] at hdsdig
    have hr8 : digitsN 8 r = some ('.' :: (d6 ++ '-' :: (c :: (ds' ++ m3)))) := by
      refine (digitsN_some 8 r _).2 ⟨d8, ?_, h8len, h8dig⟩
      rw [hr]
      simp
    have hr6 : digitsN 6 (d6 ++ '-' :: (c :: (ds' ++ m3)))
        = some ('-' :: (c :: (ds' ++ m3))) := by
      refine (digitsN_some 6 _ _).2 ⟨d6, rfl, h6len, h6dig⟩
    unfold tsHead
    rw [hr8]
    show tsAfter8 ('.' :: (d6 ++ '-' :: (c :: (ds' ++ m3)))) = true
    rw [show tsAfter8 ('.' :: (d6 ++ '-' :: (c :: (ds' ++ m3))))
        = if ('.' : Char) = '.' then tsAfterDot (d6 ++ '-' :: (c :: (ds' ++ m3))) else false
      from rfl, if_pos rfl]
    unfold tsAfterDot
    rw [hr6]
    show tsAfter14 ('-' :: (c :: (ds' ++ m3))) = true
    rw [show tsAfter14 ('-' :: (c :: (ds' ++ m3)))
        = if ('-' : Char) = '-' then tsAfterDash (c :: (ds' ++ m3)) else false
      from rfl, if_pos rfl]
    show c.isDigit = true
    exact hdsdig.1

theorem tsHead_iff (r : Str) :
    tsHead r = true ↔ ∃ m2 m3, r = m2 ++ m3 ∧ isTS m2 := by
  constructor
  · intro h
    rcases tsHead_elim r h with ⟨d8, d6, c, rest, hr, h8len, h8dig, h6len, h6dig, hcd⟩
    refine ⟨d8 ++ '.' :: (d6 ++ '-' :: [c]), rest, ?_,
      d8, d6, [c], rfl, h8len, h8dig, h6len, h6dig, by simp, by simp [digitsOnly, hcd]⟩
    rw [hr]
    simp
  · rintro ⟨m2, m3, hr, d8, d6, ds, hm2, h8len, h8dig, h6len, h6dig, hdsne, hdsdig⟩
    refine tsHead_intro r d8 d6 ds m3 ?_ h8len h8dig h6len h6dig hdsne hdsdig
    rw [hr, hm2]

theorem tsTake_split (r : Str) (h : tsHead r = true) :
    r = (tsTake r).1 ++ (tsTake r).2 ∧ isTS (tsTake r).1 := by
  rcases tsHead_elim r h with ⟨d8, d6, c, rest, hr, h8len, h8dig, h6len, h6dig, hcd⟩
  have hlen : (d8 ++ '.' :: (d6 ++ ['-'])).length = 16 := by
    simp [List.length_append, h8len, h6len]
  have hrpre : r = (d8 ++ '.' :: (d6 ++ ['-'])) ++ (c :: rest) := by
    rw [hr]
    simp
  have htake : r.take 16 = d8 ++ '.' :: (d6 ++ ['-']) := by
    rw [hrpre, ← hlen]
    exact List.take_left _ _
  have hdrop : r.drop 16 = c :: rest := by
    rw [hrpre, ← hlen]
    exact List.drop_left _ _
  have htw : (c :: rest).takeWhile Char.isDigit = c :: rest.takeWhile Char.isDigit := by
    rw [List.takeWhile_cons, if_pos hcd]
  constructor
  · show r = (r.take 16 ++ (r.drop 16).takeWhile Char.isDigit)
        ++ (r.drop 16).dropWhile Char.isDigit
    rw [List.append_assoc, List.takeWhile_append_dropWhile, List.take_append_drop]
  · show isTS (r.take 16 ++ (r.drop 16).takeWhile Char.isDigit)
    rw [htake, hdrop, htw]
    refine ⟨d8, d6, c :: rest.takeWhile Char.isDigit, by simp, h8len, h8dig,
      h6len, h6dig, by simp, ?_⟩
    simp only [digitsOnly, List.all_cons, Bool.and_eq_true]
    refine ⟨hcd, ?_⟩
    rw [List.all_eq_true]
    intro x hx
    exact List.mem_takeWhile_imp hx

theorem goodCutU_true_iff (name : Str) (i : Nat) :
    goodCutU name i = true ↔ 0 < i ∧ ∃ r, name.drop i = '-' :: r ∧ tsHead r = true := by
  unfold goodCutU
  rw [Bool.and_eq_true]
  constructor
  · rintro ⟨h1, h2⟩
    refine ⟨of_decide_eq_true h1, ?_⟩
    cases hd : name.drop i with
    | nil => rw [hd] at h2; simp at h2
    | cons c r =>
      rw [hd] at h2
      have h2' : (if c = '-' then tsHead r else false) = true := h2
      by_cases hc : c = '-'
      · rw [if_pos hc] at h2'
        exact ⟨r, by rw [hc], h2'⟩
      · rw [if_neg hc] at h2'
        simp at h2'
  · rintro ⟨hi, r, hd, hts⟩
    refine ⟨decide_eq_true hi, ?_⟩
    rw [hd]
    show (if ('-' : Char) = '-' then tsHead r else false) = true
    rw [if_pos rfl]
    exact hts

theorem matchesUnique_iff (f : Str) :
    matchesUnique f ↔ ∃ i, i < f.length ∧ goodCutU f i = true := by
  constructor
  · rintro ⟨m1, m2, m3, hf, hne, hts⟩
    refine ⟨m1.length, ?_, ?_⟩
    · rw [hf]
      simp [List.length_append]
    · rw [goodCutU_true_iff]
      refine ⟨List.length_pos.2 hne, m2 ++ m3, ?_, ?_⟩
      · rw [hf]
        exact List.drop_left m1 _
      · rw [tsHead_iff]
        exact ⟨m2, m3, rfl, hts⟩
  · rintro ⟨i, hlen, hcut⟩
    rcases (goodCutU_true_iff f i).1 hcut with ⟨hi, r, hd, hts⟩
    rcases (tsHead_iff r).1 hts with ⟨m2, m3, hr, htsm⟩
    refine ⟨f.take i, m2, m3, ?_, ?_, htsm⟩
    · conv_lhs => rw [← List.take_append_drop i f, hd, hr]
    · intro hc
      have hl := congrArg List.length hc
      simp only [List.length_take, List.length_nil] at hl
      omega

theorem findUnique_eq_some_of_matches (f : Str) (h : matchesUnique f) :
    ∃ m1 m2, findUnique f = some (m1, m2) := by
  rcases (matchesUnique_iff f).1 h with ⟨i, hlen, hcut⟩
  cases hb : bestCutU f with
  | none =>
    exfalso
    have hnone := List.find?_eq_none.1 hb i
      (by rw [List.mem_reverse, List.mem_range]; exact hlen)
    exact hnone hcut
  | some j =>
    have hgj : goodCutU f j = true := List.find?_some hb
    rcases (goodCutU_true_iff f j).1 hgj with ⟨hj, r, hd, hts⟩
    refine ⟨f.take j, (tsTake r).1, ?_⟩
    unfold findUnique
    rw [hb]
    show (match f.drop j with
      | [] => none
      | c :: r => if c = '-' then some (f.take j, (tsTake r).1) else none)
        = some (f.take j, (tsTake r).1)
    rw [hd]
    show (if ('-' : Char) = '-' then some (f.take j, (tsTake r).1) else none)
        = some (f.take j, (tsTake r).1)
    rw [if_pos rfl]

theorem findUnique_sound (f m1 m2 : Str) (h : findUnique f = some (m1, m2)) :
    ∃ m3, f = m1 ++ '-' :: (m2 ++ m3) ∧ m1 ≠ [] ∧ isTS m2 := by
  unfold findUnique at h
  cases hb : bestCutU f with
  | none => rw [hb] at h; simp at h
  | some i =>
    rw [hb] at h
    have hgi : goodCutU f i = true := List.find?_some hb
    have hilen : i < f.length := by
      have := List.mem_of_find?_eq_some hb
      rw [List.mem_reverse, List.mem_range] at this
      exact this
    rcases (goodCutU_true_iff f i).1 hgi with ⟨hi, r, hd, hts⟩
    have h2 : (match f.drop i with
      | [] => none
      | c :: r => if c = '-' then some (f.take i, (tsTake r).1) else none)
        = some (m1, m2) := h
    rw [hd] at h2
    have h' : (if ('-' : Char) = '-' then some (f.take i, (tsTake r).1) else none)
        = some (m1, m2) := h2
    rw [if_pos rfl] at h'
    have hp := Option.some.inj h'
    have hm1 : f.take i = m1 := congrArg Prod.fst hp
    have hm2 : (tsTake r).1 = m2 := congrArg Prod.snd hp
    obtain ⟨hsplit, hists⟩ := tsTake_split r hts
    refine ⟨(tsTake r).2, ?_, ?_, hm2 ▸ hists⟩
    · rw [← hm1, ← hm2]
      conv_lhs => rw [← List.take_append_drop i f, hd, hsplit]
    · rw [← hm1]
      intro hc
      have hl := congrArg List.length hc
      simp only [List.length_take, List.length_nil] at hl
      omega

theorem goodCutS_true_iff (name : Str) (i : Nat) :
    goodCutS name i = true ↔ 0 < i ∧ ∃ t, name.drop i = '-' :: (snapLit ++ t) := by
  unfold goodCutS
  rw [Bool.and_eq_true]
  constructor
  · rintro ⟨h1, h2⟩
    refine ⟨of_decide_eq_true h1, ?_⟩
    cases hd : name.drop i with
    | nil => rw [hd] at h2; simp at h2
    | cons c r =>
      rw [hd] at h2
      have h2' : (if c = '-' then strStarts snapLit r else false) = true := h2
      by_cases hc : c = '-'
      · rw [if_pos hc] at h2'
        rcases (strStarts_iff snapLit r).1 h2' with ⟨t, ht⟩
        exact ⟨t, by rw [hc, ht]⟩
      · rw [if_neg hc] at h2'
        simp at h2'
  · rintro ⟨hi, t, hd⟩
    refine ⟨decide_eq_true hi, ?_⟩
    rw [hd]
    show (if ('-' : Char) = '-' then strStarts snapLit (snapLit ++ t) else false) = true
    rw [if_pos rfl]
    exact (strStarts_iff snapLit _).2 ⟨t, rfl⟩

theorem matchesSnap_iff (f : Str) :
    matchesSnap f ↔ ∃ i, i < f.length ∧ goodCutS f i = true := by
  constructor
  · rintro ⟨m1, m3, hf, hne⟩
    refine ⟨m1.length, ?_, ?_⟩
    · rw [hf]
      simp [List.length_append]
    · rw [goodCutS_true_iff]
      refine ⟨List.length_pos.2 hne, m3, ?_⟩
      rw [hf]
      exact List.drop_left m1 _
  · rintro ⟨i, hlen, hcut⟩
    rcases (goodCutS_true_iff f i).1 hcut with ⟨hi, t, hd⟩
    refine ⟨f.take i, t, ?_, ?_⟩
    · conv_lhs => rw [← List.take_append_drop i f, hd]
    · intro hc
      have hl := congrArg List.length hc
      simp only [List.length_take, List.length_nil] at hl
      omega

theorem findSnap_eq_some_of_matches (f : Str) (h : matchesSnap f) :
    ∃ m1, findSnap f = some m1 := by
  rcases (matchesSnap_iff f).1 h with ⟨i, hlen, hcut⟩
  cases hb : bestCutS f with
  | none =>
    exfalso
    have hnone := List.find?_eq_none.1 hb i
      (by rw [List.mem_reverse, List.mem_range]; exact hlen)
    exact hnone hcut
  | some j =>
    refine ⟨f.take j, ?_⟩
    unfold findSnap
    rw [hb]

theorem findSnap_sound (f m1 : Str) (h : findSnap f = some m1) :
    ∃ m3, f = m1 ++ '-' :: (snapLit ++ m3) ∧ m1 ≠ [] := by
  unfold findSnap at h
  cases hb : bestCutS f with
  | none => rw [hb] at h; simp at h
  | some i =>
    rw [hb] at h
    have hm1 : f.take i = m1 := Option.some.inj h
    have hgi : goodCutS f i = true := List.find?_some hb
    have hilen : i < f.length := by
      have := List.mem_of_find?_eq_some hb
      rw [List.mem_reverse, List.mem_range] at this
      exact this
    rcases (goodCutS_true_iff f i).1 hgi with ⟨hi, t, hd⟩
    refine ⟨t, ?_, ?_⟩
    · rw [← hm1]
      conv_lhs => rw [← List.take_append_drop i f, hd]
    · rw [← hm1]
      intro hc
      have hl := congrArg List.length hc
      simp only [List.length_take, List.length_nil] at hl
      omega

/-- C2: `extractVersion` returns `{m1}-{m2}` (the greedy regex groups,
witnessed by the executable matcher together with a concrete group
decomposition) whenever the name matches the anchored unique-snapshot
regex; otherwise `{m1}-SNAPSHOT` whenever it matches the anchored
non-unique-snapshot regex; otherwise the name cut at its first dot (the
whole name when it has no dot). -/
theorem extractVersion_matches_spec (f : Str) :
    (matchesUnique f →
      ∃ m1 m2, findUnique f = some (m1, m2)
        ∧ extractVersion f = m1 ++ '-' :: m2
        ∧ ∃ m3, f = m1 ++ '-' :: (m2 ++ m3) ∧ m1 ≠ [] ∧ isTS m2)
    ∧ (¬ matchesUnique f → matchesSnap f →
      ∃ m1, findSnap f = some m1
        ∧ extractVersion f = m1 ++ '-' :: snapLit
        ∧ ∃ m3, f = m1 ++ '-' :: (snapLit ++ m3) ∧ m1 ≠ [])
    ∧ (¬ matchesUnique f → ¬ matchesSnap f →
      extractVersion f
        = (if f.any (fun c => c = '.') then f.takeWhile (fun c => c ≠ '.') else f)) := by
  have hUnone : ¬ matchesUnique f → findUnique f = none := by
    intro hn
    cases hu : findUnique f with
    | none => rfl
    | some p =>
      exfalso
      obtain ⟨m1, m2⟩ := p
      rcases findUnique_sound f m1 m2 hu with ⟨m3, hf, hne, hts⟩
      exact hn ⟨m1, m2, m3, hf, hne, hts⟩
  have hSnone : ¬ matchesSnap f → findSnap f = none := by
    intro hn
    cases hs : findSnap f with
    | none => rfl
    | some m1 =>
      exfalso
      rcases findSnap_sound f m1 hs with ⟨m3, hf, hne⟩
      exact hn ⟨m1, m3, hf, hne⟩
  refine ⟨?_, ?_, ?_⟩
  · intro hm
    rcases findUnique_eq_some_of_matches f hm with ⟨m1, m2, hu⟩
    refine ⟨m1, m2, hu, ?_, findUnique_sound f m1 m2 hu⟩
    simp [extractVersion, hu]
  · intro hnu hms
    rcases findSnap_eq_some_of_matches f hms with ⟨m1, hs⟩
    refine ⟨m1, hs, ?_, findSnap_sound f m1 hs⟩
    simp [extractVersion, hUnone hnu, hs]
  · intro hnu hns
    simp [extractVersion, hUnone hnu, hSnone hns]

/-- C2 (witness): the theorem instantiated at
`app-1.0-20230101.123456-7-sources.jar`, which matches the
unique-snapshot regex with greedy groups `app-1.0` and
`20230101.123456-7`. -/
theorem extractVersion_matches_spec_witness :
    ∃ m1 m2, findUnique "app-1.0-20230101.123456-7-sources.jar".toList = some (m1, m2)
      ∧ extractVersion "app-1.0-20230101.123456-7-sources.jar".toList = m1 ++ '-' :: m2
      ∧ ∃ m3, "app-1.0-20230101.123456-7-sources.jar".toList = m1 ++ '-' :: (m2 ++ m3)
        ∧ m1 ≠ [] ∧ isTS m2 :=
  (extractVersion_matches_spec "app-1.0-20230101.123456-7-sources.jar".toList).1
    ⟨"app-1.0".toList, "20230101.123456-7".toList, "-sources.jar".toList,
      by decide, by decide,
      ⟨"20230101".toList, "123456".toList, "7".toList, by decide, by decide, by decide,
        by decide, by decide, by decide, by decide⟩⟩
